import Mathlib

/-! # Verification of the minimal Porter stemmer

Shallow embedding of the Rust implementation in `src/main.rs` of the
`PorterStemmer` struct and its methods.  Machine integers (`usize`) are
rendered as `Nat`; every subtraction or index that could underflow or go
out of bounds in Rust is modelled explicitly, a panic becoming `none` in
the `Option` monad.  Each definition is a direct transcription of the
corresponding Rust function; `else if` chains over suffix tables are
factored through the list recursors `tryReplace` and `tryEnds`.
-/

namespace Porter

/-- The mutable state of the Rust `PorterStemmer` struct: the character
buffer and the three cursors `k` (end), `k0` (start) and `j` (the general
offset written by `ends_with`). -/
structure St where
  buffer : List Char
  k : Nat
  k0 : Nat
  j : Nat
deriving DecidableEq

/-- `PorterStemmer::new`: empty buffer, all cursors zero. -/
def St.new : St := { buffer := [], k := 0, k0 := 0, j := 0 }

/-- Vowel test used by the `match` in `is_consonant`. -/
def isVowelChar (c : Char) : Bool :=
  c == 'a' || c == 'e' || c == 'i' || c == 'o' || c == 'u'

/-- `is_consonant(i)` from the source: vowels are not consonants, `y` is a
consonant exactly when `i == k0` or the previous character is not a
consonant, everything else is a consonant.  Indexing out of range is a
panic (`none`); so is the `usize` underflow `i - 1` when `i = 0 ≠ k0`. -/
def is_consonant (b : List Char) (k0 : Nat) : Nat → Option Bool
  | 0 =>
    match b.get? 0 with
    | none => none
    | some c =>
      if isVowelChar c then some false
      else if c == 'y' then
        if (0 : Nat) == k0 then some true else none
      else some true
  | i + 1 =>
    match b.get? (i + 1) with
    | none => none
    | some c =>
      if isVowelChar c then some false
      else if c == 'y' then
        if i + 1 == k0 then some true
        else (is_consonant b k0 i).map fun r => !r
      else some true

/-- The three positions of control in the nested loops of `measure`:
skipping the leading consonant run, skipping a vowel run, or skipping a
consonant run. -/
inductive MPhase where
  | lead
  | vowel
  | cons
deriving DecidableEq

/-- The loop nest of `measure`, with the iteration count `left = j + 1 - i`
made the structural argument: `left = 0` is exactly the exit test `i > j`
of the Rust loops.  In phase `lead` the counter `n` is still `0`. -/
def mLoop (b : List Char) (k0 : Nat) : Nat → MPhase → Nat → Nat → Option Nat
  | 0, _, n, _ => some n
  | left + 1, ph, n, i =>
    match is_consonant b k0 i with
    | none => none
    | some isC =>
      match ph, isC with
      | .lead, true => mLoop b k0 left .lead 0 (i + 1)
      | .lead, false => mLoop b k0 left .vowel 0 (i + 1)
      | .vowel, true => mLoop b k0 left .cons (n + 1) (i + 1)
      | .vowel, false => mLoop b k0 left .vowel n (i + 1)
      | .cons, true => mLoop b k0 left .cons n (i + 1)
      | .cons, false => mLoop b k0 left .vowel n (i + 1)

/-- `measure()` from the source: the number of vowel-run-to-consonant-run
transitions in the region `[k0, j]`. -/
def measure (st : St) : Option Nat :=
  mLoop st.buffer st.k0 (st.j + 1 - st.k0) MPhase.lead 0 st.k0

/-- The short-circuiting scan of `vowel_in_stem`, again with
`left = j + 1 - i` structural. -/
def vinLoop (b : List Char) (k0 : Nat) : Nat → Nat → Option Bool
  | 0, _ => some false
  | left + 1, i =>
    match is_consonant b k0 i with
    | none => none
    | some false => some true
    | some true => vinLoop b k0 left (i + 1)

/-- `vowel_in_stem()` from the source: some index in `[k0, j]` is not a
consonant. -/
def vowel_in_stem (st : St) : Option Bool :=
  vinLoop st.buffer st.k0 (st.j + 1 - st.k0) st.k0

/-- `double_consonant(j)` from the source. -/
def double_consonant (st : St) (j : Nat) : Option Bool :=
  if j < st.k0 + 1 then some false
  else
    match st.buffer.get? j, st.buffer.get? (j - 1) with
    | some cj, some cj1 =>
      if cj != cj1 then some false
      else is_consonant st.buffer st.k0 j
    | _, _ => none

/-- `cvc(i)` from the source, with the Rust short-circuit order of the
three `is_consonant` calls preserved. -/
def cvc (st : St) (i : Nat) : Option Bool :=
  if i < st.k0 + 2 then some false
  else
    match is_consonant st.buffer st.k0 i with
    | none => none
    | some c2 =>
      if !c2 then some false
      else
        match is_consonant st.buffer st.k0 (i - 1) with
        | none => none
        | some c1 =>
          if c1 then some false
          else
            match is_consonant st.buffer st.k0 (i - 2) with
            | none => none
            | some c0 =>
              if !c0 then some false
              else
                match st.buffer.get? i with
                | none => none
                | some ch => some (ch != 'w' && ch != 'x' && ch != 'y')

/-- `ends_with(s)` from the source.  The checks mirror the Rust order:
`k - k0` underflow, the length guard (returning `false`), the slice
`buffer[(k+1-len)..=k]` whose end must be in bounds, the comparison, and
on success the assignment `j = k - len`, which underflows (panics) when
the suffix is the whole active region. -/
def ends_with (st : St) (s : List Char) : Option (Bool × St) :=
  if st.k < st.k0 then none
  else if s.length > st.k - st.k0 + 1 then some (false, st)
  else if st.buffer.length ≤ st.k then none
  else if (st.buffer.drop (st.k + 1 - s.length)).take s.length = s then
    if st.k < s.length then none
    else some (true, { st with j := st.k - s.length })
  else some (false, st)

/-- The write loop of `set_to`: `buffer[j + 1 + i] = s[i]` for each `i`,
panicking on an out-of-bounds write. -/
def setChars : List Char → Nat → List Char → Option (List Char)
  | buf, _, [] => some buf
  | buf, pos, c :: rest =>
    if pos < buf.length then setChars (buf.set pos c) (pos + 1) rest
    else none

/-- `set_to(s)` from the source: overwrite `(j+1), ..., j+len` with `s` and
set `k = j + len`. -/
def set_to (st : St) (s : List Char) : Option St :=
  (setChars st.buffer (st.j + 1) s).map fun b =>
    { st with buffer := b, k := st.j + s.length }

/-- `replace_suffix_if_stem_measured(s)` from the source: `set_to(s)` only
when `measure() > 0`. -/
def replace_suffix_if_stem_measured (st : St) (s : List Char) : Option St :=
  match measure st with
  | none => none
  | some m => if m > 0 then set_to st s else some st

/-- The plural block of `step1ab` (entered when `buffer[k] == 's'`):
`sses`, `ies`, then dropping a single non-doubled `s`. -/
def step1a (st : St) : Option St :=
  match ends_with st ("sses".data) with
  | none => none
  | some (b1, st1) =>
    if b1 then
      if st1.k < 2 then none else some { st1 with k := st1.k - 2 }
    else
      match ends_with st1 ("ies".data) with
      | none => none
      | some (b2, st2) =>
        if b2 then set_to st2 ("i".data)
        else
          if st2.k < 1 then none
          else
            match st2.buffer.get? (st2.k - 1) with
            | none => none
            | some c1 =>
              if c1 != 's' then some { st2 with k := st2.k - 1 }
              else some st2

/-- The inner block of `step1ab` executed after `k = j` on an `ed`/`ing`
match: `at`/`bl`/`iz` restoration, doubled-consonant removal (keeping
doubled `l`, `s`, `z`), and the `cvc` `e` restoration. -/
def step1b2 (st : St) : Option St :=
  match ends_with st ("at".data) with
  | none => none
  | some (bat, st1) =>
    if bat then set_to st1 ("ate".data)
    else
      match ends_with st1 ("bl".data) with
      | none => none
      | some (bbl, st2) =>
        if bbl then set_to st2 ("ble".data)
        else
          match ends_with st2 ("iz".data) with
          | none => none
          | some (biz, st3) =>
            if biz then set_to st3 ("ize".data)
            else
              match double_consonant st3 st3.k with
              | none => none
              | some dc =>
                if dc then
                  if st3.k < 1 then none
                  else
                    match st3.buffer.get? (st3.k - 1) with
                    | none => none
                    | some ch =>
                      if ch == 'l' || ch == 's' || ch == 'z' then some st3
                      else some { st3 with k := st3.k - 1 }
                else
                  match measure st3 with
                  | none => none
                  | some m =>
                    if m == 1 then
                      match cvc st3 st3.k with
                      | none => none
                      | some cv => if cv then set_to st3 ("e".data) else some st3
                    else some st3

/-- The verb-ending block of `step1ab`: `eed` with the measure guard, then
`ed`/`ing` with the vowel-in-stem guard (with Rust short-circuit: `ing` is
not tried when `ed` already matched). -/
def step1b (st : St) : Option St :=
  match ends_with st ("eed".data) with
  | none => none
  | some (be, st1) =>
    if be then
      match measure st1 with
      | none => none
      | some m =>
        if m > 0 then
          if st1.k < 1 then none else some { st1 with k := st1.k - 1 }
        else some st1
    else
      match ends_with st1 ("ed".data) with
      | none => none
      | some (bed, st2) =>
        match (if bed then some (true, st2) else ends_with st2 ("ing".data)) with
        | none => none
        | some (bei, st3) =>
          if bei then
            match vowel_in_stem st3 with
            | none => none
            | some v =>
              if v then step1b2 { st3 with k := st3.j }
              else some st3
          else some st3

/-- `step1ab()` from the source: the plural block (when the word ends in
`s`) followed unconditionally by the verb-ending block. -/
def step1ab (st : St) : Option St :=
  match st.buffer.get? st.k with
  | none => none
  | some ck =>
    match (if ck == 's' then step1a st else some st) with
    | none => none
    | some st1 => step1b st1

/-- `step1c()` from the source: terminal `y` becomes `i` when the stem
contains a vowel. -/
def step1c (st : St) : Option St :=
  match ends_with st ("y".data) with
  | none => none
  | some (bY, st1) =>
    if bY then
      match vowel_in_stem st1 with
      | none => none
      | some v =>
        if v then
          if st1.k < st1.buffer.length then
            some { st1 with buffer := st1.buffer.set st1.k 'i' }
          else none
        else some st1
    else some st1

/-- An `else if` chain of `ends_with(suffix)` tests each guarding
`replace_suffix_if_stem_measured(replacement)`, as in `step2`/`step3`:
the first matching suffix is replaced and the chain stops. -/
def tryReplace (st : St) : List (List Char × List Char) → Option St
  | [] => some st
  | (suf, rep) :: rest =>
    match ends_with st suf with
    | none => none
    | some (b, st1) =>
      if b then replace_suffix_if_stem_measured st1 rep
      else tryReplace st1 rest

/-- `step2()` from the source: dispatch on `buffer[k-1]`, each branch an
`else if` chain over its suffix table. -/
def step2 (st : St) : Option St :=
  if st.k ≤ st.k0 then some st
  else
    match st.buffer.get? (st.k - 1) with
    | none => none
    | some c =>
      match c with
      | 'a' => tryReplace st
          [(("ational".data), ("ate".data)), (("tional".data), ("tion".data))]
      | 'c' => tryReplace st
          [(("enci".data), ("ence".data)), (("anci".data), ("ance".data))]
      | 'e' => tryReplace st [(("izer".data), ("ize".data))]
      | 'l' => tryReplace st
          [(("bli".data), ("ble".data)), (("alli".data), ("al".data)),
           (("entli".data), ("ent".data)), (("eli".data), ("e".data)),
           (("ousli".data), ("ous".data))]
      | 'o' => tryReplace st
          [(("ization".data), ("ize".data)), (("ation".data), ("ate".data)),
           (("ator".data), ("ate".data))]
      | 's' => tryReplace st
          [(("alism".data), ("al".data)), (("iveness".data), ("ive".data)),
           (("fulness".data), ("ful".data)), (("ousness".data), ("ous".data))]
      | 't' => tryReplace st
          [(("aliti".data), ("al".data)), (("iviti".data), ("ive".data)),
           (("biliti".data), ("ble".data))]
      | 'g' => tryReplace st [(("logi".data), ("log".data))]
      | _ => some st

/-- `step3()` from the source: dispatch on `buffer[k]`. -/
def step3 (st : St) : Option St :=
  match st.buffer.get? st.k with
  | none => none
  | some c =>
    match c with
    | 'e' => tryReplace st
        [(("icate".data), ("ic".data)), (("ative".data), ("".data)),
         (("alize".data), ("al".data))]
    | 'i' => tryReplace st [(("iciti".data), ("ic".data))]
    | 'l' => tryReplace st
        [(("ical".data), ("ic".data)), (("ful".data), ("".data))]
    | 's' => tryReplace st [(("ness".data), ("".data))]
    | _ => some st

/-- An `else if` chain of plain `ends_with` tests, as in `step4`: the
first match wins and reports `true`. -/
def tryEnds (st : St) : List (List Char) → Option (Bool × St)
  | [] => some (false, st)
  | suf :: rest =>
    match ends_with st suf with
    | none => none
    | some (b, st1) => if b then some (true, st1) else tryEnds st1 rest

/-- The `'o'` branch of `step4`: `ion` is accepted only when `j >= k0` and
`buffer[j]` is `s` or `t` (short-circuit order preserved); otherwise `ou`
is tried. -/
def step4o (st : St) : Option (Bool × St) :=
  match ends_with st ("ion".data) with
  | none => none
  | some (b1, st1) =>
    match (if b1 then
             if st1.k0 ≤ st1.j then
               match st1.buffer.get? st1.j with
               | none => none
               | some cj => some (cj == 's' || cj == 't')
             else some false
           else some false) with
    | none => none
    | some cond =>
      if cond then some (true, st1)
      else
        match ends_with st1 ("ou".data) with
        | none => none
        | some (b2, st2) => some (b2, st2)

/-- The dispatch of step 4 on the second-to-last character: each branch
recognizes its suffix table (the `'o'` branch with the `ion` special
case). -/
def step4suffix (st : St) (c : Char) : Option (Bool × St) :=
  match c with
  | 'a' => tryEnds st [("al".data)]
  | 'c' => tryEnds st [("ance".data), ("ence".data)]
  | 'e' => tryEnds st [("er".data)]
  | 'i' => tryEnds st [("ic".data)]
  | 'l' => tryEnds st [("able".data), ("ible".data)]
  | 'n' => tryEnds st [("ant".data), ("ement".data), ("ment".data), ("ent".data)]
  | 'o' => step4o st
  | 's' => tryEnds st [("ism".data)]
  | 't' => tryEnds st [("ate".data), ("iti".data)]
  | 'u' => tryEnds st [("ous".data)]
  | 'v' => tryEnds st [("ive".data)]
  | 'z' => tryEnds st [("ize".data)]
  | _ => some (false, st)

/-- `step4()` from the source: dispatch on `buffer[k-1]`, recognize a
suffix, and truncate `k = j` only when `measure() > 1`. -/
def step4 (st : St) : Option St :=
  if st.k ≤ st.k0 then some st
  else
    match st.buffer.get? (st.k - 1) with
    | none => none
    | some c =>
      match step4suffix st c with
      | none => none
      | some (matched, st1) =>
        if matched then
          match measure st1 with
          | none => none
          | some m => if m > 1 then some { st1 with k := st1.j } else some st1
        else some st1

/-- `step5()` from the source: set `j = k`; drop a final `e` when
`m > 1`, or `m = 1` without `cvc(k-1)`; then drop one `l` of a final
doubled `l` when `m > 1`. -/
def step5 (st : St) : Option St :=
  match ({ st with j := st.k } : St).buffer.get? st.k with
  | none => none
  | some ck =>
    match (if ck == 'e' then
             match measure { st with j := st.k } with
             | none => none
             | some a =>
               match (if a > 1 then some true
                      else if a == 1 then
                        if st.k < 1 then none
                        else
                          match cvc { st with j := st.k } (st.k - 1) with
                          | none => none
                          | some cv => some (!cv)
                      else some false) with
               | none => none
               | some cond =>
                 if cond then
                   if st.k < 1 then none
                   else some { st with j := st.k, k := st.k - 1 }
                 else some { st with j := st.k }
           else some ({ st with j := st.k } : St)) with
    | none => none
    | some st1 =>
      match st1.buffer.get? st1.k with
      | none => none
      | some cl =>
        if cl == 'l' then
          match double_consonant st1 st1.k with
          | none => none
          | some dc =>
            if dc then
              match measure st1 with
              | none => none
              | some m =>
                if m > 1 then
                  if st1.k < 1 then none else some { st1 with k := st1.k - 1 }
                else some st1
            else some st1
        else some st1

/-- The fixed pipeline run by `stem` on a word longer than two characters:
`step1ab`, then (when more than one character remains) `step1c` through
`step5`. -/
def stemPipeline (st : St) : Option St :=
  match step1ab st with
  | none => none
  | some st1 =>
    if st1.k0 < st1.k then
      match step1c st1 with
      | none => none
      | some st2 =>
        match step2 st2 with
        | none => none
        | some st3 =>
          match step3 st3 with
          | none => none
          | some st4 =>
            match step4 st4 with
            | none => none
            | some st5 => step5 st5
    else some st1

/-- The per-character lowercase conversion `char::to_lowercase` of the
standard library, rendered on the code points this development uses: the
ASCII range and the Latin-1 range of the Unicode simple lowercase table
(`A`-`Z` -> `a`-`z`, U+00C0-U+00DE except the multiplication sign U+00D7
map by adding 32), plus the one SpecialCasing.txt entry among them whose
lowercase form is longer than one character: U+0130 LATIN CAPITAL LETTER
I WITH DOT ABOVE lowercases to `i` followed by U+0307 COMBINING DOT
ABOVE. Code points outside these ranges are returned unchanged, as the
library does for code points without a lowercase mapping (no such code
point occurs in the theorems below). -/
def char_to_lowercase (c : Char) : List Char :=
  if c = 'İ' then ['i', '\u0307']
  else if ('A' ≤ c ∧ c ≤ 'Z') ∨ ('À' ≤ c ∧ c ≤ 'Þ' ∧ c ≠ '×') then
    [Char.ofNat (c.toNat + 32)]
  else [c]

/-- `word.to_lowercase()` of the standard library: the concatenation of
the per-character lowercase expansions. Unlike a character-wise map this
can lengthen the string, since U+0130 expands to two characters. -/
def to_lowercase (w : String) : List Char :=
  w.data.foldr (fun c acc => char_to_lowercase c ++ acc) []

/-- `stem(word)` as the method on the struct: empty word returns `""`
without touching the state; otherwise `word.to_lowercase()` is loaded,
`k` and `k0` are reset (but `j` keeps its previous value), loaded buffers
of length at most two are returned as loaded, and longer buffers run the
pipeline and return `buffer[0..=k]`. -/
def stemM (st : St) (word : String) : Option (String × St) :=
  if word.data.isEmpty then some ("", st)
  else
    let buf := to_lowercase word
    let st1 : St := { buffer := buf, k := buf.length - 1, k0 := 0, j := st.j }
    if st1.k ≤ st1.k0 + 1 then some (String.mk st1.buffer, st1)
    else
      match stemPipeline st1 with
      | none => none
      | some st2 =>
        if st2.k < st2.buffer.length then
          some (String.mk (st2.buffer.take (st2.k + 1)), st2)
        else none

/-- The result of `stem(word)` on a freshly constructed stemmer. -/
def stem (word : String) : Option String :=
  (stemM St.new word).map Prod.fst

/-- Agreement of two states on the buffer and the cursors `k` and `k0`:
they differ at most in the scratch offset `j`. -/
def sameCore (s t : St) : Prop :=
  s.buffer = t.buffer ∧ s.k = t.k ∧ s.k0 = t.k0

/-- Relation between the results of running the same computation from two
`sameCore`-agreeing states: both panic, or both return states that again
`sameCore`-agree. -/
def optRel (o1 o2 : Option St) : Prop :=
  (o1 = none ∧ o2 = none) ∨ (∃ s t, o1 = some s ∧ o2 = some t ∧ sameCore s t)

/-! ## Definitions taken from the spec's words

`consFlags` classifies the region `[i, i + left)` of the buffer under
`is_consonant`; `specVC` is the count of complete vowel-run-followed-by-
consonant-run pairs described in the spec: skip a leading consonant run,
then repeatedly skip a vowel run followed by a consonant run, counting one
per such pair, until the region is exhausted. -/

/-- The consonant classification of `left` positions starting at `i`. -/
def consFlags (b : List Char) (k0 : Nat) : Nat → Nat → List Bool
  | 0, _ => []
  | left + 1, i => ((is_consonant b k0 i).getD false) :: consFlags b k0 left (i + 1)

/-- Modelled from the spec: repeatedly skip a vowel run followed by a
consonant run, counting one complete VC pair per iteration. -/
def specVCgo (bs : List Bool) : Nat :=
  match h : bs.dropWhile (fun x => x == false) with
  | [] => 0
  | _ :: rest => 1 + specVCgo (rest.dropWhile (fun x => x == true))
termination_by bs.length
decreasing_by
  have h1 := (@List.dropWhile_sublist Bool bs (fun x => x == false)).length_le
  have h2 := (@List.dropWhile_sublist Bool rest (fun x => x == true)).length_le
  rw [h] at h1
  simp only [List.length_cons] at h1
  omega

/-- Modelled from the spec: skip the optional leading consonant run, then
count the complete VC pairs. -/
def specVC (bs : List Bool) : Nat :=
  specVCgo (bs.dropWhile (fun x => x == true))

/-! ## Fuelled renderings of the two recursions

`isConsF` and `mLoopF` restate `is_consonant` and the loop nest of
`measure` with an explicit iteration budget and, in `mLoopF`, the literal
exit test `i > j` of the Rust loops; the outer `none` means the budget ran
out.  The termination theorems show a budget bounded by the input
suffices. -/

/-- `is_consonant` with an explicit recursion budget. -/
def isConsF (b : List Char) (k0 : Nat) : Nat → Nat → Option (Option Bool)
  | 0, _ => none
  | fuel + 1, i =>
    match b.get? i with
    | none => some none
    | some c =>
      if isVowelChar c then some (some false)
      else if c == 'y' then
        if i == k0 then some (some true)
        else if i == 0 then some none
        else (isConsF b k0 fuel (i - 1)).map fun r => r.map fun x => !x
      else some (some true)

/-- The loop nest of `measure` with an explicit iteration budget and the
literal exit test `i > j`. -/
def mLoopF (b : List Char) (k0 j : Nat) : Nat → MPhase → Nat → Nat → Option (Option Nat)
  | 0, _, _, _ => none
  | fuel + 1, ph, n, i =>
    if j < i then some (some n)
    else
      match is_consonant b k0 i with
      | none => some none
      | some isC =>
        match ph, isC with
        | .lead, true => mLoopF b k0 j fuel .lead 0 (i + 1)
        | .lead, false => mLoopF b k0 j fuel .vowel 0 (i + 1)
        | .vowel, true => mLoopF b k0 j fuel .cons (n + 1) (i + 1)
        | .vowel, false => mLoopF b k0 j fuel .vowel n (i + 1)
        | .cons, true => mLoopF b k0 j fuel .cons n (i + 1)
        | .cons, false => mLoopF b k0 j fuel .vowel n (i + 1)

/-! ## Basic inversion lemmas -/

/-- What a returning `ends_with` call did to the state: the buffer and the
cursors `k`, `k0` are untouched; a `false` return leaves the state exactly
as it was; a `true` return records `j = k - len` (and the suffix fitted
strictly inside the region, or the call would have panicked). -/
theorem ends_with_inv {st : St} {s : List Char} {r : Bool} {st' : St}
    (h : ends_with st s = some (r, st')) :
    st'.buffer = st.buffer ∧ st'.k = st.k ∧ st'.k0 = st.k0
    ∧ (r = false → st' = st)
    ∧ (r = true → s.length ≤ st.k ∧ st'.j = st.k - s.length) := by
  unfold ends_with at h
  split_ifs at h with h1 h2 h3 h4 h5 <;>
    simp only [Option.some.injEq, Prod.mk.injEq] at h
  · obtain ⟨hr, hst⟩ := h
    subst hr; subst hst
    simp
  · obtain ⟨hr, hst⟩ := h
    subst hr; subst hst
    refine ⟨rfl, rfl, rfl, ?_, ?_⟩
    · intro hh; cases hh
    · intro _; exact ⟨by omega, rfl⟩
  · obtain ⟨hr, hst⟩ := h
    subst hr; subst hst
    simp

/-- The write loop of `set_to` never changes the buffer's length. -/
theorem setChars_inv : ∀ (s : List Char) (buf : List Char) (pos : Nat) (buf' : List Char),
    setChars buf pos s = some buf' → buf'.length = buf.length := by
  intro s
  induction s with
  | nil =>
    intro buf pos buf' h
    unfold setChars at h
    cases h
    rfl
  | cons c rest ih =>
    intro buf pos buf' h
    unfold setChars at h
    split at h
    · have := ih (buf.set pos c) (pos + 1) buf' h
      simpa using this
    · cases h

/-- What a returning `set_to` call did: buffer length preserved, `k`
becomes `j + len`, `k0` and `j` untouched. -/
theorem set_to_inv {st : St} {s : List Char} {st' : St} (h : set_to st s = some st') :
    st'.buffer.length = st.buffer.length ∧ st'.k = st.j + s.length
    ∧ st'.k0 = st.k0 ∧ st'.j = st.j := by
  unfold set_to at h
  cases hc : setChars st.buffer (st.j + 1) s with
  | none => rw [hc] at h; cases h
  | some b =>
    rw [hc] at h
    cases h
    exact ⟨setChars_inv s _ _ _ hc, rfl, rfl, rfl⟩

/-- `measure` does not read the `k` cursor. -/
theorem measure_set_k (st : St) (x : Nat) : measure { st with k := x } = measure st := rfl

/-- What a returning `replace_suffix_if_stem_measured` call did. -/
theorem replace_inv {st : St} {s : List Char} {st' : St}
    (h : replace_suffix_if_stem_measured st s = some st') :
    st'.buffer.length = st.buffer.length ∧ st'.k0 = st.k0
    ∧ (st' = st ∨ (st'.k = st.j + s.length ∧ st'.j = st.j)) := by
  unfold replace_suffix_if_stem_measured at h
  split at h
  · cases h
  · split at h
    · obtain ⟨h1, h2, h3, h4⟩ := set_to_inv h
      exact ⟨h1, h3, Or.inr ⟨h2, h4⟩⟩
    · cases h
      exact ⟨rfl, rfl, Or.inl rfl⟩

/-- What a returning `tryReplace` chain did: either no suffix matched and
the state is unchanged, or the first matching pair `(suf, rep)` of the
table produced `k = k - len suf + len rep` (or the measure guard left the
state with only `j` rewritten). -/
theorem tryReplace_inv : ∀ (L : List (List Char × List Char)) (st st' : St),
    tryReplace st L = some st' →
    st'.buffer.length = st.buffer.length ∧ st'.k0 = st.k0
    ∧ (st'.k = st.k ∨ ∃ p ∈ L, p.1.length ≤ st.k
        ∧ st'.k = st.k - p.1.length + p.2.length) := by
  intro L
  induction L with
  | nil =>
    intro st st' h
    unfold tryReplace at h
    cases h
    exact ⟨rfl, rfl, Or.inl rfl⟩
  | cons p rest ih =>
    intro st st' h
    obtain ⟨suf, rep⟩ := p
    unfold tryReplace at h
    split at h
    · cases h
    · rename_i heq
      obtain ⟨hb1, hk1, hk01, hf1, ht1⟩ := ends_with_inv heq
      split at h
      · rename_i hb
        obtain ⟨hlen, hsufk⟩ := ht1 hb
        obtain ⟨h1, h2, h3⟩ := replace_inv h
        refine ⟨by rw [h1, hb1], by rw [h2, hk01], ?_⟩
        rcases h3 with h3 | ⟨h3k, h3j⟩
        · subst h3; exact Or.inl hk1
        · refine Or.inr ⟨(suf, rep), by simp, ?_, ?_⟩
          · simpa using hlen
          · simp only []
            omega
      · rename_i hb
        have hst1 : _ = st := hf1 (by simpa using hb)
        rw [hst1] at h
        obtain ⟨h1, h2, h3⟩ := ih st st' h
        refine ⟨h1, h2, ?_⟩
        rcases h3 with h3 | ⟨q, hq, hql, hqk⟩
        · exact Or.inl h3
        · exact Or.inr ⟨q, by simp [hq], hql, hqk⟩

/-- `tryReplace` never lengthens the active region when every replacement
of the table is no longer than its suffix. -/
theorem tryReplace_k_le {L : List (List Char × List Char)} {st st' : St}
    (hL : ∀ p ∈ L, p.2.length ≤ p.1.length)
    (h : tryReplace st L = some st') :
    st'.k ≤ st.k ∧ st'.buffer.length = st.buffer.length ∧ st'.k0 = st.k0 := by
  obtain ⟨h1, h2, h3⟩ := tryReplace_inv L st st' h
  refine ⟨?_, h1, h2⟩
  rcases h3 with h3 | ⟨p, hp, hpl, hpk⟩
  · omega
  · have := hL p hp
    omega

/-- Step 2 never lengthens the active region and preserves the buffer
length and `k0`. -/
theorem step2_inv {st st' : St} (h : step2 st = some st') :
    st'.k ≤ st.k ∧ st'.buffer.length = st.buffer.length ∧ st'.k0 = st.k0 := by
  unfold step2 at h
  split at h
  · cases h; exact ⟨le_refl _, rfl, rfl⟩
  · split at h
    · cases h
    · split at h <;>
        first
          | (cases h; exact ⟨le_refl _, rfl, rfl⟩)
          | exact tryReplace_k_le (by decide) h

/-- Step 3 never lengthens the active region and preserves the buffer
length and `k0`. -/
theorem step3_inv {st st' : St} (h : step3 st = some st') :
    st'.k ≤ st.k ∧ st'.buffer.length = st.buffer.length ∧ st'.k0 = st.k0 := by
  unfold step3 at h
  split at h
  · cases h
  · split at h <;>
      first
        | (cases h; exact ⟨le_refl _, rfl, rfl⟩)
        | exact tryReplace_k_le (by decide) h

/-- What a returning `tryEnds` chain did: buffer and cursors `k`, `k0` are
untouched; a `false` result means no suffix matched and the state is
unchanged; a `true` result records `j = k - len` for the first matching
suffix of the table. -/
theorem tryEnds_inv : ∀ (L : List (List Char)) (st : St) (r : Bool) (st' : St),
    tryEnds st L = some (r, st') →
    st'.buffer = st.buffer ∧ st'.k = st.k ∧ st'.k0 = st.k0
    ∧ (r = false → st' = st)
    ∧ (r = true → ∃ suf ∈ L, suf.length ≤ st.k ∧ st'.j = st.k - suf.length) := by
  intro L
  induction L with
  | nil =>
    intro st r st' h
    unfold tryEnds at h
    simp only [Option.some.injEq, Prod.mk.injEq] at h
    obtain ⟨hr, hst⟩ := h
    subst hr; subst hst
    refine ⟨rfl, rfl, rfl, fun _ => rfl, ?_⟩
    intro hh; cases hh
  | cons suf rest ih =>
    intro st r st' h
    unfold tryEnds at h
    split at h
    · cases h
    · rename_i heq
      obtain ⟨hb1, hk1, hk01, hf1, ht1⟩ := ends_with_inv heq
      split at h
      · rename_i hb
        simp only [Option.some.injEq, Prod.mk.injEq] at h
        obtain ⟨hr, hst⟩ := h
        subst hr; subst hst
        obtain ⟨hlen, hj⟩ := ht1 (by simpa using hb)
        refine ⟨hb1, hk1, hk01, ?_, ?_⟩
        · intro hh; cases hh
        · intro _; exact ⟨suf, by simp, hlen, hj⟩
      · rename_i hb
        have hst1 : _ = st := hf1 (by simpa using hb)
        rw [hst1] at h
        obtain ⟨h1, h2, h3, h4, h5⟩ := ih st r st' h
        refine ⟨h1, h2, h3, h4, ?_⟩
        intro hr
        obtain ⟨q, hq, hql, hqj⟩ := h5 hr
        exact ⟨q, by simp [hq], hql, hqj⟩

/-- What a returning `step4o` (the `'o'` branch of step 4) did: buffer and
cursors `k`, `k0` untouched; a `true` result sets `j = k - 3` (`ion`) or
`j = k - 2` (`ou`); a `false` result leaves `k` (and everything but the
scratch `j`) as it was. -/
theorem step4o_inv {st : St} {r : Bool} {st' : St} (h : step4o st = some (r, st')) :
    st'.buffer = st.buffer ∧ st'.k = st.k ∧ st'.k0 = st.k0
    ∧ (r = true → (st'.j = st.k - 3 ∧ 3 ≤ st.k) ∨ (st'.j = st.k - 2 ∧ 2 ≤ st.k)) := by
  unfold step4o at h
  split at h
  · cases h
  · rename_i b1 st1 heq1
    obtain ⟨hb1, hk1, hk01, hf1, ht1⟩ := ends_with_inv heq1
    split at h
    · cases h
    · rename_i cond hcond
      split at h
      · rename_i hcy
        simp only [Option.some.injEq, Prod.mk.injEq] at h
        obtain ⟨hr, hst⟩ := h
        subst hr; subst hst
        refine ⟨hb1, hk1, hk01, fun _ => ?_⟩
        cases hcond_b1 : b1 with
        | false =>
          rw [hcond_b1] at hcond
          simp only [Bool.false_eq_true, if_false, Option.some.injEq] at hcond
          rw [← hcond] at hcy
          simp at hcy
        | true =>
          obtain ⟨hlen, hj⟩ := ht1 hcond_b1
          exact Or.inl ⟨hj, hlen⟩
      · split at h
        · cases h
        · rename_i b2 st2 heq2
          obtain ⟨hb2, hk2, hk02, hf2, ht2⟩ := ends_with_inv heq2
          simp only [Option.some.injEq, Prod.mk.injEq] at h
          obtain ⟨hr, hst⟩ := h
          subst hr; subst hst
          refine ⟨by rw [hb2, hb1], by rw [hk2, hk1], by rw [hk02, hk01], ?_⟩
          intro hb
          obtain ⟨hlen, hj⟩ := ht2 hb
          rw [hk1] at hlen hj
          exact Or.inr ⟨hj, hlen⟩

/-- The common tail of step 4: after a suffix was (or was not) recognized,
the word shrinks to `j` only under `measure() > 1`. -/
theorem step4tail_inv {st st1 : St} {matched : Bool} {st' : St}
    (hb : st1.buffer = st.buffer) (hk : st1.k = st.k) (hk0 : st1.k0 = st.k0)
    (hj : matched = true → st1.j ≤ st.k)
    (h : (if matched then
            match measure st1 with
            | none => none
            | some m => if m > 1 then some { st1 with k := st1.j } else some st1
          else some st1) = some st') :
    st'.buffer = st.buffer ∧ st'.k0 = st.k0 ∧
    (st'.k = st.k ∨ (st'.k = st'.j ∧ st'.k ≤ st.k ∧ ∃ m, measure st' = some m ∧ 1 < m)) := by
  split at h
  · rename_i hm
    split at h
    · cases h
    · rename_i m hmeq
      split at h
      · rename_i hm1
        cases h
        exact ⟨hb, hk0,
          Or.inr ⟨rfl, hj hm, m, by rw [measure_set_k]; exact hmeq, hm1⟩⟩
      · cases h
        exact ⟨hb, hk0, Or.inl hk⟩
  · cases h
    exact ⟨hb, hk0, Or.inl hk⟩

/-- What a returning step 4 did: the buffer and `k0` are untouched, and
either `k` is unchanged or the word was truncated to the recorded
boundary under a measure strictly greater than 1. -/
theorem step4_inv {st st' : St} (h : step4 st = some st') :
    st'.buffer = st.buffer ∧ st'.k0 = st.k0 ∧
    (st'.k = st.k ∨ (st'.k = st'.j ∧ st'.k ≤ st.k ∧ ∃ m, measure st' = some m ∧ 1 < m)) := by
  unfold step4 at h
  split at h
  · cases h
    exact ⟨rfl, rfl, Or.inl rfl⟩
  · split at h
    · cases h
    · split at h
      · cases h
      · rename_i matched st1 heq
        unfold step4suffix at heq
        split at heq
        · obtain ⟨h1, h2, h3, _, h5⟩ := tryEnds_inv _ _ _ _ heq
          refine step4tail_inv h1 h2 h3 (fun hm => ?_) h
          obtain ⟨suf, _, hlen, hjj⟩ := h5 hm
          omega
        · obtain ⟨h1, h2, h3, _, h5⟩ := tryEnds_inv _ _ _ _ heq
          refine step4tail_inv h1 h2 h3 (fun hm => ?_) h
          obtain ⟨suf, _, hlen, hjj⟩ := h5 hm
          omega
        · obtain ⟨h1, h2, h3, _, h5⟩ := tryEnds_inv _ _ _ _ heq
          refine step4tail_inv h1 h2 h3 (fun hm => ?_) h
          obtain ⟨suf, _, hlen, hjj⟩ := h5 hm
          omega
        · obtain ⟨h1, h2, h3, _, h5⟩ := tryEnds_inv _ _ _ _ heq
          refine step4tail_inv h1 h2 h3 (fun hm => ?_) h
          obtain ⟨suf, _, hlen, hjj⟩ := h5 hm
          omega
        · obtain ⟨h1, h2, h3, _, h5⟩ := tryEnds_inv _ _ _ _ heq
          refine step4tail_inv h1 h2 h3 (fun hm => ?_) h
          obtain ⟨suf, _, hlen, hjj⟩ := h5 hm
          omega
        · obtain ⟨h1, h2, h3, _, h5⟩ := tryEnds_inv _ _ _ _ heq
          refine step4tail_inv h1 h2 h3 (fun hm => ?_) h
          obtain ⟨suf, _, hlen, hjj⟩ := h5 hm
          omega
        · obtain ⟨h1, h2, h3, h4⟩ := step4o_inv heq
          refine step4tail_inv h1 h2 h3 (fun hm => ?_) h
          rcases h4 hm with ⟨hjj, _⟩ | ⟨hjj, _⟩ <;> omega
        · obtain ⟨h1, h2, h3, _, h5⟩ := tryEnds_inv _ _ _ _ heq
          refine step4tail_inv h1 h2 h3 (fun hm => ?_) h
          obtain ⟨suf, _, hlen, hjj⟩ := h5 hm
          omega
        · obtain ⟨h1, h2, h3, _, h5⟩ := tryEnds_inv _ _ _ _ heq
          refine step4tail_inv h1 h2 h3 (fun hm => ?_) h
          obtain ⟨suf, _, hlen, hjj⟩ := h5 hm
          omega
        · obtain ⟨h1, h2, h3, _, h5⟩ := tryEnds_inv _ _ _ _ heq
          refine step4tail_inv h1 h2 h3 (fun hm => ?_) h
          obtain ⟨suf, _, hlen, hjj⟩ := h5 hm
          omega
        · obtain ⟨h1, h2, h3, _, h5⟩ := tryEnds_inv _ _ _ _ heq
          refine step4tail_inv h1 h2 h3 (fun hm => ?_) h
          obtain ⟨suf, _, hlen, hjj⟩ := h5 hm
          omega
        · obtain ⟨h1, h2, h3, _, h5⟩ := tryEnds_inv _ _ _ _ heq
          refine step4tail_inv h1 h2 h3 (fun hm => ?_) h
          obtain ⟨suf, _, hlen, hjj⟩ := h5 hm
          omega
        · simp only [Option.some.injEq, Prod.mk.injEq] at heq
          obtain ⟨hm, hst⟩ := heq
          subst hst
          refine step4tail_inv rfl rfl rfl (fun hmm => ?_) h
          rw [← hm] at hmm
          cases hmm

/-- Step 1c keeps `k`, the buffer length and `k0` unchanged (it only
rewrites the final character in place). -/
theorem step1c_inv {st st' : St} (h : step1c st = some st') :
    st'.k = st.k ∧ st'.buffer.length = st.buffer.length ∧ st'.k0 = st.k0 := by
  unfold step1c at h
  split at h
  · cases h
  · rename_i b1 st1 heq
    obtain ⟨hb1, hk1, hk01, hf1, ht1⟩ := ends_with_inv heq
    split at h
    · split at h
      · cases h
      · split at h
        · split at h
          · cases h
            exact ⟨hk1, by simp [hb1], hk01⟩
          · cases h
        · cases h
          exact ⟨hk1, by rw [hb1], hk01⟩
    · cases h
      exact ⟨hk1, by rw [hb1], hk01⟩

/-- The plural block of step 1 never lengthens the active region and
preserves the buffer length and `k0`. -/
theorem step1a_inv {st st' : St} (h : step1a st = some st') :
    st'.k ≤ st.k ∧ st'.buffer.length = st.buffer.length ∧ st'.k0 = st.k0 := by
  unfold step1a at h
  split at h
  · cases h
  · rename_i b1 st1 heq1
    obtain ⟨hb1, hk1, hk01, hf1, ht1⟩ := ends_with_inv heq1
    split at h
    · split at h
      · cases h
      · cases h
        exact ⟨by (try simp only []); omega, by rw [hb1], hk01⟩
    · split at h
      · cases h
      · rename_i b2 st2 heq2
        obtain ⟨hb2, hk2, hk02, hf2, ht2⟩ := ends_with_inv heq2
        split at h
        · rename_i hb
          obtain ⟨hlen2, hj2⟩ := ht2 (by simpa using hb)
          obtain ⟨hs1, hs2, hs3, hs4⟩ := set_to_inv h
          refine ⟨?_, by rw [hs1, hb2, hb1], by rw [hs3, hk02, hk01]⟩
          have hll : (("i").data).length ≤ (("ies").data).length := by decide
          omega
        · split at h
          · cases h
          · split at h
            · cases h
            · split at h
              · cases h
                exact ⟨by (try simp only []); omega, by rw [hb2, hb1], by rw [hk02, hk01]⟩
              · cases h
                exact ⟨by omega, by rw [hb2, hb1], by rw [hk02, hk01]⟩

/-- The inner `at`/`bl`/`iz`/double-consonant/`cvc` block of step 1b,
entered with `j = k`, lengthens the active region by at most one (the
appended `e` of `ate`/`ble`/`ize`/`e`). -/
theorem step1b2_inv {st st' : St} (hjk : st.j = st.k) (h : step1b2 st = some st') :
    st'.k ≤ st.k + 1 ∧ st'.buffer.length = st.buffer.length ∧ st'.k0 = st.k0 := by
  unfold step1b2 at h
  split at h
  · cases h
  · rename_i b1 st1 heq1
    obtain ⟨hb1, hk1, hk01, hf1, ht1⟩ := ends_with_inv heq1
    split at h
    · rename_i hb
      obtain ⟨hlen1, hj1⟩ := ht1 (by simpa using hb)
      obtain ⟨hs1, hs2, hs3, hs4⟩ := set_to_inv h
      refine ⟨?_, by rw [hs1, hb1], by rw [hs3, hk01]⟩
      have hll : (("ate").data).length ≤ (("at").data).length + 1 := by decide
      omega
    · rename_i hb
      obtain rfl := hf1 (by simpa using hb)
      split at h
      · cases h
      · rename_i b2 st2 heq2
        obtain ⟨hb2, hk2, hk02, hf2, ht2⟩ := ends_with_inv heq2
        split at h
        · rename_i hb'
          obtain ⟨hlen2, hj2⟩ := ht2 (by simpa using hb')
          obtain ⟨hs1, hs2, hs3, hs4⟩ := set_to_inv h
          refine ⟨?_, by rw [hs1, hb2], by rw [hs3, hk02]⟩
          have hll : (("ble").data).length ≤ (("bl").data).length + 1 := by decide
          omega
        · rename_i hb'
          obtain rfl := hf2 (by simpa using hb')
          split at h
          · cases h
          · rename_i b3 st3 heq3
            obtain ⟨hb3, hk3, hk03, hf3, ht3⟩ := ends_with_inv heq3
            split at h
            · rename_i hb3'
              obtain ⟨hlen3, hj3⟩ := ht3 (by simpa using hb3')
              obtain ⟨hs1, hs2, hs3, hs4⟩ := set_to_inv h
              refine ⟨?_, by rw [hs1, hb3], by rw [hs3, hk03]⟩
              have hll : (("ize").data).length ≤ (("iz").data).length + 1 := by decide
              omega
            · rename_i hb3'
              obtain rfl := hf3 (by simpa using hb3')
              split at h
              · cases h
              · split at h
                · split at h
                  · cases h
                  · split at h
                    · cases h
                    · split at h
                      · cases h
                        exact ⟨by omega, rfl, rfl⟩
                      · cases h
                        exact ⟨by (try simp only []); omega, rfl, rfl⟩
                · split at h
                  · cases h
                  · split at h
                    · split at h
                      · cases h
                      · rename_i cv hcv
                        split at h
                        · obtain ⟨hs1, hs2, hs3, hs4⟩ := set_to_inv h
                          refine ⟨?_, hs1, hs3⟩
                          have hll : (("e").data).length = 1 := by decide
                          omega
                        · cases h
                          exact ⟨by omega, rfl, rfl⟩
                    · cases h
                      exact ⟨by omega, rfl, rfl⟩

/-- The verb-ending block of step 1 never lengthens the active region and
preserves the buffer length and `k0`. -/
theorem step1b_inv {st st' : St} (h : step1b st = some st') :
    st'.k ≤ st.k ∧ st'.buffer.length = st.buffer.length ∧ st'.k0 = st.k0 := by
  unfold step1b at h
  split at h
  · cases h
  · rename_i b1 st1 heq1
    obtain ⟨hb1, hk1, hk01, hf1, ht1⟩ := ends_with_inv heq1
    split at h
    · split at h
      · cases h
      · split at h
        · split at h
          · cases h
          · cases h
            exact ⟨by (try simp only []); omega, by rw [hb1], hk01⟩
        · cases h
          exact ⟨by omega, by rw [hb1], hk01⟩
    · rename_i hb
      rw [hf1 (by simpa using hb)] at h
      split at h
      · cases h
      · rename_i bed st2 heq2
        obtain ⟨hb2, hk2, hk02, hf2, ht2⟩ := ends_with_inv heq2
        split at h
        · cases h
        · rename_i bei st3 heq3
          have hst3 : st3.buffer = st.buffer ∧ st3.k = st.k ∧ st3.k0 = st.k0
              ∧ (bei = true → st3.j + 2 ≤ st.k) := by
            split at heq3
            · rename_i hbed
              simp only [Option.some.injEq, Prod.mk.injEq] at heq3
              obtain ⟨hbei, hsteq⟩ := heq3
              subst hsteq
              obtain ⟨hlen2, hj2⟩ := ht2 (by simpa using hbed)
              refine ⟨hb2, hk2, hk02, fun _ => ?_⟩
              have hll : 2 ≤ (("ed").data).length := by decide
              omega
            · rename_i hbed
              obtain rfl := hf2 (by simpa using hbed)
              obtain ⟨hb3, hk3, hk03, hf3, ht3⟩ := ends_with_inv heq3
              refine ⟨hb3, hk3, hk03, fun hbt => ?_⟩
              obtain ⟨hlen3, hj3⟩ := ht3 hbt
              have hll : 2 ≤ (("ing").data).length := by decide
              omega
          obtain ⟨hc1, hc2, hc3, hc4⟩ := hst3
          cases hbei : bei with
          | false =>
            rw [hbei] at h
            rw [if_neg (by simp)] at h
            cases h
            exact ⟨by omega, by rw [hc1], hc3⟩
          | true =>
            rw [hbei] at h
            rw [if_pos rfl] at h
            have hj2 := hc4 hbei
            split at h
            · cases h
            · split at h
              · have hres := step1b2_inv rfl h
                obtain ⟨hr1, hr2, hr3⟩ := hres
                refine ⟨?_, ?_, ?_⟩
                · simp only [] at hr1
                  omega
                · simpa [hc1] using hr2
                · simpa [hc3] using hr3
              · cases h
                exact ⟨by omega, by rw [hc1], hc3⟩

/-- Step 1ab never lengthens the active region and preserves the buffer
length and `k0`. -/
theorem step1ab_inv {st st' : St} (h : step1ab st = some st') :
    st'.k ≤ st.k ∧ st'.buffer.length = st.buffer.length ∧ st'.k0 = st.k0 := by
  unfold step1ab at h
  split at h
  · cases h
  · split at h
    · cases h
    · rename_i stmid heqmid
      have hmid : stmid.k ≤ st.k ∧ stmid.buffer.length = st.buffer.length
          ∧ stmid.k0 = st.k0 := by
        split at heqmid
        · exact step1a_inv heqmid
        · cases heqmid
          exact ⟨le_refl _, rfl, rfl⟩
      obtain ⟨hm1, hm2, hm3⟩ := hmid
      obtain ⟨hb1, hb2, hb3⟩ := step1b_inv h
      exact ⟨by omega, by rw [hb2, hm2], by rw [hb3, hm3]⟩

/-- Step 5 never lengthens the active region and preserves the buffer
length and `k0`. -/
theorem step5_inv {st st' : St} (h : step5 st = some st') :
    st'.k ≤ st.k ∧ st'.buffer.length = st.buffer.length ∧ st'.k0 = st.k0 := by
  unfold step5 at h
  split at h
  · cases h
  · split at h
    · cases h
    · rename_i st1 heq1
      have h1 : st1.k ≤ st.k ∧ st1.buffer = st.buffer ∧ st1.k0 = st.k0 := by
        split at heq1
        · split at heq1
          · cases heq1
          · split at heq1
            · cases heq1
            · split at heq1
              · split at heq1
                · cases heq1
                · cases heq1
                  exact ⟨by (try simp only []); omega, rfl, rfl⟩
              · cases heq1
                exact ⟨le_refl _, rfl, rfl⟩
        · cases heq1
          exact ⟨le_refl _, rfl, rfl⟩
      obtain ⟨h11, h12, h13⟩ := h1
      have h2 : st'.k ≤ st1.k ∧ st'.buffer = st1.buffer ∧ st'.k0 = st1.k0 := by
        split at h
        · cases h
        · split at h
          · split at h
            · cases h
            · split at h
              · split at h
                · cases h
                · split at h
                  · split at h
                    · cases h
                    · cases h
                      exact ⟨by (try simp only []); omega, rfl, rfl⟩
                  · cases h
                    exact ⟨le_refl _, rfl, rfl⟩
              · cases h
                exact ⟨le_refl _, rfl, rfl⟩
          · cases h
            exact ⟨le_refl _, rfl, rfl⟩
      obtain ⟨h21, h22, h23⟩ := h2
      exact ⟨by omega, by rw [h22, h12], by rw [h23, h13]⟩

/-- The whole pipeline never lengthens the active region and preserves
the buffer length and `k0`. -/
theorem stemPipeline_inv {st st' : St} (h : stemPipeline st = some st') :
    st'.k ≤ st.k ∧ st'.buffer.length = st.buffer.length ∧ st'.k0 = st.k0 := by
  unfold stemPipeline at h
  split at h
  · cases h
  · rename_i st1 heq1
    obtain ⟨h1k, h1b, h1k0⟩ := step1ab_inv heq1
    split at h
    · split at h
      · cases h
      · rename_i st2 heq2
        obtain ⟨h2k, h2b, h2k0⟩ := step1c_inv heq2
        split at h
        · cases h
        · rename_i st3 heq3
          obtain ⟨h3k, h3b, h3k0⟩ := step2_inv heq3
          split at h
          · cases h
          · rename_i st4 heq4
            obtain ⟨h4k, h4b, h4k0⟩ := step3_inv heq4
            split at h
            · cases h
            · rename_i st5 heq5
              obtain ⟨h5b, h5k0, h5kor⟩ := step4_inv heq5
              have h5k : st5.k ≤ st4.k := by
                rcases h5kor with h5kor | ⟨_, h5kor, _⟩ <;> omega
              obtain ⟨h6k, h6b, h6k0⟩ := step5_inv h
              refine ⟨by omega, ?_, ?_⟩
              · rw [h6b, h5b, h4b, h3b, h2b, h1b]
              · rw [h6k0, h5k0, h4k0, h3k0, h2k0, h1k0]
    · cases h
      exact ⟨h1k, h1b, h1k0⟩

/-! ## C1: totality on ASCII-letter input -/

/-- C1: refuted — the claim that `stem` returns normally on every
ASCII-letter word fails.  When a matched suffix is the entire word the
assignment `j = k - length` in `ends_with` underflows `usize` and the call
panics: `stem "ion"` (the very case the reference C code's Release-2 fix
guarded) and `stem "eed"` both panic, modelled as `none`. -/
theorem stem_panics_on_whole_word_suffix :
    stem ("ion") = none ∧ stem ("eed") = none := by
  exact ⟨by decide, by decide⟩

/-! ## C2: literal scenarios -/

/-- C2 counterexample: the spec's literal scenario `stem("agreed") ==
"agree"` fails on the code; step 5 removes the final `e` of `"agree"`
because the measure is 1 and `cvc` does not hold at the previous
position. -/
theorem agreed_not_agree : stem ("agreed") ≠ some ("agree") := by decide

/-- C2 (amended): the ten literal scenarios, with `stem("agreed") =
"agre"` as the code (and the canonical algorithm) actually computes. -/
theorem literal_outputs :
    stem ("caresses") = some ("caress") ∧ stem ("ponies") = some ("poni")
    ∧ stem ("ties") = some ("ti") ∧ stem ("caress") = some ("caress")
    ∧ stem ("cats") = some ("cat") ∧ stem ("running") = some ("run")
    ∧ stem ("troubled") = some ("troubl") ∧ stem ("troubling") = some ("troubl")
    ∧ stem ("capabilities") = some ("capabl") ∧ stem ("agreed") = some ("agre") := by
  refine ⟨?_, ?_, ?_, ?_, ?_, ?_, ?_, ?_, ?_, ?_⟩ <;> decide

/-! ## C6: empty and short words -/

/-- C6 counterexample: the two-character word `İs` refutes the claim
that every word of length one or two is returned unchanged apart from
case-folding. Its lowercase form `i` U+0307 `s` has three characters, so
the `k <= k0 + 1` early return does not fire; the pipeline runs and step
1 strips the final `s`, so the result is neither the input nor its
case-folded form. -/
theorem stem_short_word_counterexample :
    ("İs").length ≤ 2
    ∧ stem ("İs") = some ("i\u0307")
    ∧ stem ("İs") ≠ some ("İs")
    ∧ stem ("İs") ≠ some (String.mk (to_lowercase ("İs"))) := by
  refine ⟨by decide, by decide, by decide, by decide⟩

/-- C6 amended: the empty word stems to the empty word, and whenever
`word.to_lowercase()` has length one or two, `stem` returns exactly that
lowercase form — the pipeline is bypassed by the `k <= k0 + 1` early
return. The guard is on the lowercased buffer, so an original of length
two whose lowercasing expands past two characters is stemmed normally,
and the folding is full Unicode, not a character-wise ASCII map. -/
theorem stem_short_word_amended :
    stem ("") = some ("")
    ∧ ∀ w : String, 1 ≤ (to_lowercase w).length → (to_lowercase w).length ≤ 2 →
        stem w = some (String.mk (to_lowercase w)) := by
  refine ⟨by decide, fun w h1 h2 => ?_⟩
  have hd : ¬ w.data.isEmpty := by
    intro hnil
    rw [List.isEmpty_iff] at hnil
    rw [show to_lowercase w = [] by rw [to_lowercase, hnil]; rfl] at h1
    exact absurd h1 (by decide)
  unfold stem stemM
  rw [if_neg hd, if_pos (by simp only []; omega)]
  rfl

/-- C6 witness: a concrete one-letter word outside ASCII, lowered by the
Latin-1 table. -/
theorem stem_short_word_amended_witness :
    stem ("Ä") = some (String.mk (to_lowercase ("Ä"))) :=
  stem_short_word_amended.2 ("Ä") (by decide) (by decide)

/-! ## C3: the stem is never longer than the word -/

/-- The length of a string built from an explicit character list. -/
theorem mk_length (l : List Char) : (String.mk l).length = l.length := rfl

/-- C3 counterexample: the one-character word `İ` U+0130 refutes the
claim that the stem is never longer than the input — its lowercase form
is the two characters `i` U+0307, returned by the short-word early
return, so the output is longer than the word under any length measure. -/
theorem stem_lengthens_dotted_i :
    stem ("İ") = some ("i\u0307") ∧ ("İ").length < ("i\u0307").length := by
  refine ⟨by decide, by decide⟩

/-- C3 amended: whenever `stem` returns a result, the result is no
longer than `word.to_lowercase()` — the output is a prefix
`buffer[0..=k]` of the loaded buffer, whose length the pipeline
preserves. The bound against the input word itself therefore holds
whenever lowercasing does not expand the word (in particular on all
ASCII input), but not in general. -/
theorem stem_never_lengthens_amended : ∀ (w r : String), stem w = some r →
    r.length ≤ (to_lowercase w).length
    ∧ ((to_lowercase w).length ≤ w.length → r.length ≤ w.length) := by
  intro w r h
  have main : r.length ≤ (to_lowercase w).length := by
    unfold stem at h
    cases hm : stemM St.new w with
    | none => rw [hm] at h; cases h
    | some p =>
      rw [hm] at h
      obtain ⟨res, stf⟩ := p
      simp only [Option.map_some', Option.some.injEq] at h
      subst h
      unfold stemM at hm
      split at hm
      · simp only [Option.some.injEq, Prod.mk.injEq] at hm
        obtain ⟨h1, _⟩ := hm
        rw [← h1]
        exact Nat.zero_le _
      · dsimp only at hm
        split at hm
        · simp only [Option.some.injEq, Prod.mk.injEq] at hm
          obtain ⟨h1, _⟩ := hm
          rw [← h1]
          exact Nat.le_refl _
        · split at hm
          · cases hm
          · rename_i st2 heq2
            obtain ⟨_, hlen, _⟩ := stemPipeline_inv heq2
            split at hm
            · simp only [Option.some.injEq, Prod.mk.injEq] at hm
              obtain ⟨h1, _⟩ := hm
              rw [← h1]
              simp only [mk_length] at hlen ⊢
              have htake := List.length_take (st2.k + 1) st2.buffer
              omega
            · cases hm
  exact ⟨main, fun hc => le_trans main hc⟩

/-- C3 witness: a concrete run of the length bounds. -/
theorem stem_never_lengthens_amended_witness :
    ("run").length ≤ (to_lowercase ("running")).length
    ∧ ((to_lowercase ("running")).length ≤ ("running").length →
        ("run").length ≤ ("running").length) :=
  stem_never_lengthens_amended ("running") ("run") (by decide)

/-! ## C4: no step lengthens the active region -/

/-- C4: for each of the six step functions, whenever the step returns,
the end cursor `k` on exit is at most its value on entry (even though
`set_to` inside step 1 may write past an intermediate truncation
point). -/
theorem steps_never_lengthen :
    (∀ st st' : St, step1ab st = some st' → st'.k ≤ st.k)
    ∧ (∀ st st' : St, step1c st = some st' → st'.k ≤ st.k)
    ∧ (∀ st st' : St, step2 st = some st' → st'.k ≤ st.k)
    ∧ (∀ st st' : St, step3 st = some st' → st'.k ≤ st.k)
    ∧ (∀ st st' : St, step4 st = some st' → st'.k ≤ st.k)
    ∧ (∀ st st' : St, step5 st = some st' → st'.k ≤ st.k) := by
  refine ⟨fun st st' h => (step1ab_inv h).1,
          fun st st' h => le_of_eq (step1c_inv h).1,
          fun st st' h => (step2_inv h).1,
          fun st st' h => (step3_inv h).1,
          fun st st' h => ?_,
          fun st st' h => (step5_inv h).1⟩
  obtain ⟨_, _, hk⟩ := step4_inv h
  rcases hk with hk | ⟨_, hk, _⟩ <;> omega

/-- C4 witness: one concrete run of each of the six steps. -/
theorem steps_never_lengthen_witness :
    ((⟨("caresses".data), 5, 0, 3⟩ : St).k ≤ (⟨("caresses".data), 7, 0, 0⟩ : St).k)
    ∧ ((⟨("happi".data), 4, 0, 3⟩ : St).k ≤ (⟨("happy".data), 4, 0, 0⟩ : St).k)
    ∧ ((⟨("relateonal".data), 5, 0, 2⟩ : St).k ≤ (⟨("relational".data), 9, 0, 0⟩ : St).k)
    ∧ ((⟨("formalize".data), 5, 0, 3⟩ : St).k ≤ (⟨("formalize".data), 8, 0, 0⟩ : St).k)
    ∧ ((⟨("adoption".data), 4, 0, 4⟩ : St).k ≤ (⟨("adoption".data), 7, 0, 0⟩ : St).k)
    ∧ ((⟨("agree".data), 3, 0, 4⟩ : St).k ≤ (⟨("agree".data), 4, 0, 0⟩ : St).k) :=
  ⟨steps_never_lengthen.1 _ _ (by decide),
   steps_never_lengthen.2.1 _ _ (by decide),
   steps_never_lengthen.2.2.1 _ _ (by decide),
   steps_never_lengthen.2.2.2.1 _ _ (by decide),
   steps_never_lengthen.2.2.2.2.1 _ _ (by decide),
   steps_never_lengthen.2.2.2.2.2 _ _ (by decide)⟩

/-! ## C10: the frame of ends_with -/

/-- C10: a returning `ends_with` call never changes the buffer or the
cursors `k` and `k0`, and when it returns `false` it leaves the entire
state — including `j` — exactly as it was, so `j` is modified only by a
call that returns `true`. -/
theorem ends_with_frame (st : St) (s : List Char) (r : Bool) (st' : St)
    (h : ends_with st s = some (r, st')) :
    (r = false → st' = st)
    ∧ st'.buffer = st.buffer ∧ st'.k = st.k ∧ st'.k0 = st.k0 := by
  obtain ⟨hb, hk, hk0, hf, _⟩ := ends_with_inv h
  exact ⟨hf, hb, hk, hk0⟩

/-- C10 witness: a failing match on a concrete state leaves it untouched,
exercised through the frame theorem. -/
theorem ends_with_frame_witness :
    ends_with ⟨("cats".data), 3, 0, 7⟩ ("ed".data)
      = some (false, ⟨("cats".data), 3, 0, 7⟩)
    ∧ (⟨("cats".data), 3, 0, 7⟩ : St) = ⟨("cats".data), 3, 0, 7⟩ := by
  refine ⟨by decide, ?_⟩
  exact (ends_with_frame ⟨("cats".data), 3, 0, 7⟩ ("ed".data) false
    ⟨("cats".data), 3, 0, 7⟩ (by decide)).1 rfl

/-! ## C5: measure counts the complete VC pairs of the region -/

/-- `is_consonant` succeeds on every index of the region: the recursion
only moves left and stays inside the buffer. -/
theorem is_consonant_isSome : ∀ (b : List Char) (k0 i : Nat), k0 ≤ i → i < b.length →
    ∃ r, is_consonant b k0 i = some r := by
  intro b k0 i
  induction i with
  | zero =>
    intro hk0 hi
    have hk00 : k0 = 0 := by omega
    obtain ⟨c, hc⟩ : ∃ c, b.get? 0 = some c := ⟨_, List.get?_eq_get hi⟩
    unfold is_consonant
    simp only [hc]
    split_ifs with h1 h2 h3
    · exact ⟨_, rfl⟩
    · exact ⟨_, rfl⟩
    · exact absurd (by simpa using hk00.symm) h3
    · exact ⟨_, rfl⟩
  | succ i ih =>
    intro hk0 hi
    obtain ⟨c, hc⟩ : ∃ c, b.get? (i + 1) = some c := ⟨_, List.get?_eq_get hi⟩
    unfold is_consonant
    simp only [hc]
    split_ifs with h1 h2 h3
    · exact ⟨_, rfl⟩
    · exact ⟨_, rfl⟩
    · have hk0i : k0 ≤ i := by
        have : ¬(i + 1 = k0) := by simpa using h3
        omega
      obtain ⟨r, hr⟩ := ih hk0i (by omega)
      rw [hr]
      exact ⟨_, rfl⟩
    · exact ⟨_, rfl⟩

/-- Unfolding of the spec scan when the vowel run exhausts the region. -/
theorem specVCgo_nil {bs : List Bool}
    (h : bs.dropWhile (fun x => x == false) = []) : specVCgo bs = 0 := by
  conv_lhs => unfold specVCgo
  split
  · rfl
  · rename_i a rest heq
    rw [h] at heq
    cases heq

/-- Unfolding of the spec scan when a consonant run follows the vowel
run: one complete VC pair is counted. -/
theorem specVCgo_cons {bs : List Bool} {a : Bool} {rest : List Bool}
    (h : bs.dropWhile (fun x => x == false) = a :: rest) :
    specVCgo bs = 1 + specVCgo (rest.dropWhile (fun x => x == true)) := by
  conv_lhs => unfold specVCgo
  split
  · rename_i heq
    rw [h] at heq
    cases heq
  · rename_i a' rest' heq
    rw [h] at heq
    cases heq
    rfl

/-- A leading vowel is skipped by the spec scan. -/
theorem specVCgo_false_cons (bs : List Bool) :
    specVCgo (false :: bs) = specVCgo bs := by
  have hd : (false :: bs).dropWhile (fun x => x == false)
      = bs.dropWhile (fun x => x == false) :=
    List.dropWhile_cons_of_pos (by simp)
  cases h : bs.dropWhile (fun x => x == false) with
  | nil => rw [specVCgo_nil (by rw [hd, h]), specVCgo_nil h]
  | cons a rest => rw [specVCgo_cons (by rw [hd, h]), specVCgo_cons h]

/-- A leading consonant starts (and completes) a VC pair for the spec
scan entered after a vowel run. -/
theorem specVCgo_true_cons (bs : List Bool) :
    specVCgo (true :: bs) = 1 + specVCgo (bs.dropWhile (fun x => x == true)) := by
  exact specVCgo_cons (List.dropWhile_cons_of_neg (by simp))

/-- The classification region grows one flag at a time. -/
theorem consFlags_succ (b : List Char) (k0 left i : Nat) {fl : Bool}
    (hfl : is_consonant b k0 i = some fl) :
    consFlags b k0 (left + 1) i = fl :: consFlags b k0 left (i + 1) := by
  conv_lhs => unfold consFlags
  rw [hfl]
  rfl

/-- The three phases of the `measure` loop nest compute exactly the spec
scan of the remaining region: `lead` is the scan after dropping the
leading consonant run, `vowel` is the scan itself, `cons` the scan after
dropping the current consonant run, each offset by the counter `n`. -/
theorem mLoop_spec (b : List Char) (k0 j : Nat) (hj : j < b.length) :
    ∀ left i, k0 ≤ i → left + i = j + 1 →
      (mLoop b k0 left MPhase.lead 0 i
         = some (specVCgo ((consFlags b k0 left i).dropWhile (fun x => x == true)))
      ∧ (∀ n, mLoop b k0 left MPhase.vowel n i
         = some (n + specVCgo (consFlags b k0 left i)))
      ∧ (∀ n, mLoop b k0 left MPhase.cons n i
         = some (n + specVCgo ((consFlags b k0 left i).dropWhile (fun x => x == true))))) := by
  intro left
  induction left with
  | zero =>
    intro i _ _
    refine ⟨?_, fun n => ?_, fun n => ?_⟩ <;>
      simp [mLoop, consFlags, specVCgo_nil]
  | succ left ih =>
    intro i hk0 hsum
    have hi : i < b.length := by omega
    obtain ⟨fl, hfl⟩ := is_consonant_isSome b k0 i hk0 hi
    have hflag := consFlags_succ b k0 left i hfl
    obtain ⟨IH1, IH2, IH3⟩ := ih (i + 1) (by omega) (by omega)
    cases fl with
    | true =>
      rw [hflag]
      refine ⟨?_, fun n => ?_, fun n => ?_⟩
      · have hu : mLoop b k0 (left + 1) MPhase.lead 0 i
            = mLoop b k0 left MPhase.lead 0 (i + 1) := by
          conv_lhs => unfold mLoop
          rw [hfl]
        rw [hu, List.dropWhile_cons_of_pos (by simp)]
        exact IH1
      · have hu : mLoop b k0 (left + 1) MPhase.vowel n i
            = mLoop b k0 left MPhase.cons (n + 1) (i + 1) := by
          conv_lhs => unfold mLoop
          rw [hfl]
        rw [hu, IH3 (n + 1), specVCgo_true_cons]
        congr 1
        omega
      · have hu : mLoop b k0 (left + 1) MPhase.cons n i
            = mLoop b k0 left MPhase.cons n (i + 1) := by
          conv_lhs => unfold mLoop
          rw [hfl]
        rw [hu, List.dropWhile_cons_of_pos (by simp)]
        exact IH3 n
    | false =>
      rw [hflag]
      refine ⟨?_, fun n => ?_, fun n => ?_⟩
      · have hu : mLoop b k0 (left + 1) MPhase.lead 0 i
            = mLoop b k0 left MPhase.vowel 0 (i + 1) := by
          conv_lhs => unfold mLoop
          rw [hfl]
        rw [hu, List.dropWhile_cons_of_neg (by simp), IH2 0, specVCgo_false_cons]
        simp
      · have hu : mLoop b k0 (left + 1) MPhase.vowel n i
            = mLoop b k0 left MPhase.vowel n (i + 1) := by
          conv_lhs => unfold mLoop
          rw [hfl]
        rw [hu, IH2 n, specVCgo_false_cons]
      · have hu : mLoop b k0 (left + 1) MPhase.cons n i
            = mLoop b k0 left MPhase.vowel n (i + 1) := by
          conv_lhs => unfold mLoop
          rw [hfl]
        rw [hu, List.dropWhile_cons_of_neg (by simp), specVCgo_false_cons, IH2 n]

/-- C5: on a lowercase-letter buffer with the boundary `j` in range,
`measure()` returns exactly the number of complete vowel-run-followed-by-
consonant-run pairs of the region `[k0, j]`, as described by the spec
scan `specVC` over the `is_consonant` classification of the region. -/
theorem measure_counts_vc_pairs (b : List Char) (k k0 j : Nat)
    (_hlower : ∀ c ∈ b, c.isLower = true ∧ c.isAlpha = true)
    (hk0 : k0 ≤ j) (hj : j < b.length) :
    measure ⟨b, k, k0, j⟩ = some (specVC (consFlags b k0 (j + 1 - k0) k0)) :=
  (mLoop_spec b k0 j hj (j + 1 - k0) k0 (le_refl _) (by omega)).1

/-- C5 witness: the measure of `"trouble"` with the boundary at its last
character, checked against the spec scan. -/
theorem measure_counts_vc_pairs_witness :
    measure ⟨("trouble".data), 6, 0, 6⟩
      = some (specVC (consFlags ("trouble".data) 0 (6 + 1 - 0) 0)) :=
  measure_counts_vc_pairs ("trouble".data) 6 0 6 (by decide) (by decide) (by decide)

/-! ## C7: the `ion` special case and the measure guard of step 4 -/

/-- A `true` return of `ends_with` certifies the content of the matched
tail of the buffer. -/
theorem ends_with_true_content {st : St} {s : List Char} {st' : St}
    (h : ends_with st s = some (true, st')) :
    (st.buffer.drop (st.k + 1 - s.length)).take s.length = s
    ∧ st.k < st.buffer.length ∧ s.length ≤ st.k := by
  unfold ends_with at h
  split_ifs at h with h1 h2 h3 h4 h5
  · simp at h
  · exact ⟨h4, by omega, by omega⟩
  · simp at h

/-- If `step4o` reports a match on a buffer whose last character is `n`
(so the `ou` alternative is impossible), then the `ion` alternative fired:
the character three places before the end exists, is `s` or `t`, and the
boundary was set to `k - 3` with `k0 ≤ k - 3`. -/
theorem step4o_ion {st st1 : St}
    (hn : st.buffer.get? st.k = some 'n')
    (h : step4o st = some (true, st1)) :
    ∃ c, st.buffer.get? (st.k - 3) = some c ∧ (c = 's' ∨ c = 't')
      ∧ st.k0 ≤ st.k - 3 ∧ st1.j = st.k - 3 := by
  unfold step4o at h
  split at h
  · cases h
  · rename_i b1 st1' heq1
    obtain ⟨hb1, hk1, hk01, hf1, ht1⟩ := ends_with_inv heq1
    split at h
    · cases h
    · rename_i cond hcond
      split at h
      · rename_i hcy
        simp only [Option.some.injEq, Prod.mk.injEq] at h
        obtain ⟨_, hst⟩ := h
        subst hst
        cases hb1eq : b1 with
        | false =>
          rw [hb1eq] at hcond
          simp only [Bool.false_eq_true, if_false, Option.some.injEq] at hcond
          rw [← hcond] at hcy
          simp at hcy
        | true =>
          obtain ⟨hlen, hj⟩ := ht1 hb1eq
          rw [hb1eq, if_pos rfl] at hcond
          split at hcond
          · rename_i hk0j
            split at hcond
            · cases hcond
            · rename_i cj hcj
              simp only [Option.some.injEq] at hcond
              rw [← hcond] at hcy
              have hcj' : cj = 's' ∨ cj = 't' := by
                rcases Bool.or_eq_true_iff.mp hcy with hh | hh
                · exact Or.inl (by simpa using hh)
                · exact Or.inr (by simpa using hh)
              have hj3 : st1'.j = st.k - 3 := hj
              refine ⟨cj, ?_, hcj', ?_, hj3⟩
              · rw [← hb1, ← hj3]
                exact hcj
              · rw [← hk01, ← hj3]
                exact hk0j
          · rename_i hk0j
            simp only [Option.some.injEq] at hcond
            rw [← hcond] at hcy
            simp at hcy
      · split at h
        · cases h
        · rename_i b2 st2 heq2
          simp only [Option.some.injEq, Prod.mk.injEq] at h
          obtain ⟨hb2true, hst⟩ := h
          subst hb2true
          obtain ⟨hcont, hlt, hlen2⟩ := ends_with_true_content heq2
          have hu : st1'.buffer.get? st1'.k = some 'u' := by
            have h1 : ((st1'.buffer.drop (st1'.k + 1 - (("ou").data).length)).take
                (("ou").data).length).get? 1 = some 'u' := by
              rw [hcont]
              rfl
            rw [List.get?_eq_getElem?, List.getElem?_take_of_lt (by decide),
                List.getElem?_drop, ← List.get?_eq_getElem?] at h1
            have he : st1'.k + 1 - (("ou").data).length + 1 = st1'.k := by
              have : (("ou").data).length = 2 := by decide
              omega
            rwa [he] at h1
          rw [hb1, hk1, hn] at hu
          cases hu

/-- C7: in step 4, in every branch a recognized suffix is removed only
when `measure() > 1` over the remaining stem (first part), and a
recognized `ion` suffix is removed only when in addition the character
immediately before the suffix exists and is `s` or `t` (second part);
otherwise step 4 leaves the word unchanged. -/
theorem step4_measure_and_ion_guard :
    (∀ st st' : St, step4 st = some st' →
        st'.buffer = st.buffer ∧ st'.k0 = st.k0 ∧
        (st'.k = st.k ∨ (st'.k = st'.j ∧ st'.k ≤ st.k
          ∧ ∃ m, measure st' = some m ∧ 1 < m)))
    ∧ (∀ st st' : St, step4 st = some st' → st'.k ≠ st.k →
        st.buffer.get? (st.k - 1) = some 'o' →
        st.buffer.get? st.k = some 'n' →
        ∃ c, st.buffer.get? (st.k - 3) = some c ∧ (c = 's' ∨ c = 't')) := by
  refine ⟨fun st st' h => step4_inv h, fun st st' h hne ho hn => ?_⟩
  unfold step4 at h
  split at h
  · cases h
    exact absurd rfl hne
  · split at h
    · cases h
    · rename_i c hceq
      rw [ho] at hceq
      have hc : c = 'o' := by
        simp only [Option.some.injEq] at hceq
        exact hceq.symm
      subst hc
      split at h
      · cases h
      · rename_i matched st1 heq
        have heqo : step4o st = some (matched, st1) := heq
        obtain ⟨ho1, ho2, ho3, _⟩ := step4o_inv heqo
        split at h
        · rename_i hmt
          split at h
          · cases h
          · rename_i m hm
            split at h
            · cases h
              rw [hmt] at heqo
              obtain ⟨cc, hcc, hor, _, _⟩ := step4o_ion hn heqo
              exact ⟨cc, hcc, hor⟩
            · cases h
              exact absurd ho2 hne
        · cases h
          exact absurd ho2 hne

/-- C7 witness: `step4` on the state loaded from `"adoption"` truncates
the `ion` suffix, and the theorem certifies the `t` before it. -/
theorem step4_measure_and_ion_guard_witness :
    ∃ c, (("adoption").data).get? (7 - 3) = some c ∧ (c = 's' ∨ c = 't') :=
  step4_measure_and_ion_guard.2 ⟨("adoption".data), 7, 0, 0⟩
    ⟨("adoption".data), 4, 0, 4⟩ (by decide) (by decide) (by decide) (by decide)

/-! ## C8: the result of stem does not depend on the incoming state -/

/-- `ends_with` reads only the buffer and the cursors `k`, `k0`: from two
states differing only in `j`, either both calls panic, or both fail
leaving their own state, or both succeed with the very same state (the
only differing field `j` being overwritten identically). -/
theorem ends_with_j_cases (b : List Char) (k k0 j j' : Nat) (s : List Char) :
    (ends_with ⟨b, k, k0, j⟩ s = none ∧ ends_with ⟨b, k, k0, j'⟩ s = none)
    ∨ (ends_with ⟨b, k, k0, j⟩ s = some (false, ⟨b, k, k0, j⟩)
        ∧ ends_with ⟨b, k, k0, j'⟩ s = some (false, ⟨b, k, k0, j'⟩))
    ∨ (∃ u, ends_with ⟨b, k, k0, j⟩ s = some (true, u)
        ∧ ends_with ⟨b, k, k0, j'⟩ s = some (true, u)) := by
  unfold ends_with
  split_ifs <;> simp

/-- The `sameCore` relation on returned states, reflexively. -/
theorem optRel_of_eq {o1 o2 : Option St} (h : o1 = o2) : optRel o1 o2 := by
  subst h
  cases o1 with
  | none => exact Or.inl ⟨rfl, rfl⟩
  | some s => exact Or.inr ⟨s, s, rfl, rfl, rfl, rfl, rfl⟩

/-- The plural block of step 1 gives `sameCore`-related results from
states differing only in `j`. -/
theorem step1a_rel (b : List Char) (k k0 j j' : Nat) :
    optRel (step1a ⟨b, k, k0, j⟩) (step1a ⟨b, k, k0, j'⟩) := by
  unfold step1a
  rcases ends_with_j_cases b k k0 j j' ("sses".data) with ⟨h1, h2⟩ | ⟨h1, h2⟩ | ⟨u, h1, h2⟩ <;>
    simp only [h1, h2]
  · exact Or.inl ⟨rfl, rfl⟩
  · simp only [Bool.false_eq_true, if_false]
    rcases ends_with_j_cases b k k0 j j' ("ies".data) with ⟨g1, g2⟩ | ⟨g1, g2⟩ | ⟨u, g1, g2⟩ <;>
      simp only [g1, g2]
    · exact Or.inl ⟨rfl, rfl⟩
    · simp only [Bool.false_eq_true, if_false]
      by_cases hk1 : k < 1
      · simp only [hk1, if_true]
        exact Or.inl ⟨rfl, rfl⟩
      · simp only [hk1, if_false]
        cases hg : b.get? (k - 1) with
        | none => exact Or.inl ⟨rfl, rfl⟩
        | some c1 =>
          by_cases hcs : (c1 != 's') = true <;>
            simp only [hcs, if_true, if_false] <;>
            exact Or.inr ⟨_, _, rfl, rfl, rfl, rfl, rfl⟩
    · exact optRel_of_eq rfl
  · exact optRel_of_eq rfl

/-- The verb-ending block of step 1 gives `sameCore`-related results from
states differing only in `j`: every read of `j` is dominated by a
successful `ends_with` in the same block, which overwrites `j`. -/
theorem step1b_rel (b : List Char) (k k0 j j' : Nat) :
    optRel (step1b ⟨b, k, k0, j⟩) (step1b ⟨b, k, k0, j'⟩) := by
  unfold step1b
  rcases ends_with_j_cases b k k0 j j' ("eed".data) with ⟨h1, h2⟩ | ⟨h1, h2⟩ | ⟨u, h1, h2⟩ <;>
    simp only [h1, h2]
  · exact Or.inl ⟨rfl, rfl⟩
  · simp only [Bool.false_eq_true, if_false]
    rcases ends_with_j_cases b k k0 j j' ("ed".data) with ⟨g1, g2⟩ | ⟨g1, g2⟩ | ⟨u, g1, g2⟩ <;>
      simp only [g1, g2]
    · exact Or.inl ⟨rfl, rfl⟩
    · simp only [Bool.false_eq_true, if_false]
      rcases ends_with_j_cases b k k0 j j' ("ing".data) with ⟨f1, f2⟩ | ⟨f1, f2⟩ | ⟨u, f1, f2⟩ <;>
        simp only [f1, f2]
      · exact Or.inl ⟨rfl, rfl⟩
      · simp only [Bool.false_eq_true, if_false]
        exact Or.inr ⟨_, _, rfl, rfl, rfl, rfl, rfl⟩
      · exact optRel_of_eq rfl
    · exact optRel_of_eq rfl
  · exact optRel_of_eq rfl

/-- Step 1c gives `sameCore`-related results from states differing only
in `j`. -/
theorem step1c_rel (b : List Char) (k k0 j j' : Nat) :
    optRel (step1c ⟨b, k, k0, j⟩) (step1c ⟨b, k, k0, j'⟩) := by
  unfold step1c
  rcases ends_with_j_cases b k k0 j j' ("y".data) with ⟨h1, h2⟩ | ⟨h1, h2⟩ | ⟨u, h1, h2⟩ <;>
    simp only [h1, h2]
  · exact Or.inl ⟨rfl, rfl⟩
  · simp only [Bool.false_eq_true, if_false]
    exact Or.inr ⟨_, _, rfl, rfl, rfl, rfl, rfl⟩
  · exact optRel_of_eq rfl

/-- Suffix-table chains give `sameCore`-related results from states
differing only in `j`. -/
theorem tryReplace_rel : ∀ (L : List (List Char × List Char)) (b : List Char) (k k0 j j' : Nat),
    optRel (tryReplace ⟨b, k, k0, j⟩ L) (tryReplace ⟨b, k, k0, j'⟩ L) := by
  intro L
  induction L with
  | nil =>
    intro b k k0 j j'
    exact Or.inr ⟨_, _, rfl, rfl, rfl, rfl, rfl⟩
  | cons p rest ih =>
    intro b k k0 j j'
    obtain ⟨suf, rep⟩ := p
    unfold tryReplace
    rcases ends_with_j_cases b k k0 j j' suf with ⟨h1, h2⟩ | ⟨h1, h2⟩ | ⟨u, h1, h2⟩ <;>
      simp only [h1, h2]
    · exact Or.inl ⟨rfl, rfl⟩
    · simp only [Bool.false_eq_true, if_false]
      exact ih b k k0 j j'
    · exact optRel_of_eq rfl

/-- Step 2 gives `sameCore`-related results from states differing only in
`j`. -/
theorem step2_rel (b : List Char) (k k0 j j' : Nat) :
    optRel (step2 ⟨b, k, k0, j⟩) (step2 ⟨b, k, k0, j'⟩) := by
  unfold step2
  by_cases hg : k ≤ k0
  · simp only [hg, if_true]
    exact Or.inr ⟨_, _, rfl, rfl, rfl, rfl, rfl⟩
  · simp only [hg, if_false]
    cases hc : b.get? (k - 1) with
    | none => exact Or.inl ⟨rfl, rfl⟩
    | some c =>
      split
      · exact Or.inl ⟨rfl, rfl⟩
      · split
        · exact tryReplace_rel _ b k k0 j j'
        · exact tryReplace_rel _ b k k0 j j'
        · exact tryReplace_rel _ b k k0 j j'
        · exact tryReplace_rel _ b k k0 j j'
        · exact tryReplace_rel _ b k k0 j j'
        · exact tryReplace_rel _ b k k0 j j'
        · exact tryReplace_rel _ b k k0 j j'
        · exact tryReplace_rel _ b k k0 j j'
        · exact Or.inr ⟨_, _, rfl, rfl, rfl, rfl, rfl⟩

/-- Step 3 gives `sameCore`-related results from states differing only in
`j`. -/
theorem step3_rel (b : List Char) (k k0 j j' : Nat) :
    optRel (step3 ⟨b, k, k0, j⟩) (step3 ⟨b, k, k0, j'⟩) := by
  unfold step3
  cases hc : b.get? k with
  | none => exact Or.inl ⟨rfl, rfl⟩
  | some c =>
    split
    · exact Or.inl ⟨rfl, rfl⟩
    · split
      · exact tryReplace_rel _ b k k0 j j'
      · exact tryReplace_rel _ b k k0 j j'
      · exact tryReplace_rel _ b k k0 j j'
      · exact tryReplace_rel _ b k k0 j j'
      · exact Or.inr ⟨_, _, rfl, rfl, rfl, rfl, rfl⟩

/-- Any computation relates to itself under the three-way case split used
for the step-4 suffix chains (the no-match disjunct holding vacuously or
by instantiation). -/
theorem self_three_way (o : Option (Bool × St)) (x y : Bool × St) :
    (o = none ∧ o = none) ∨ (o = some x ∧ o = some y)
    ∨ (∃ r u, o = some (r, u) ∧ o = some (r, u)) := by
  cases o with
  | none => exact Or.inl ⟨rfl, rfl⟩
  | some p => exact Or.inr (Or.inr ⟨p.1, p.2, rfl, rfl⟩)

/-- The suffix chains of step 4 from two states differing only in `j`:
both panic, both report no match leaving their own state, or both report
the same result. -/
theorem tryEnds_j_cases : ∀ (L : List (List Char)) (b : List Char) (k k0 j j' : Nat),
    (tryEnds ⟨b, k, k0, j⟩ L = none ∧ tryEnds ⟨b, k, k0, j'⟩ L = none)
    ∨ (tryEnds ⟨b, k, k0, j⟩ L = some (false, ⟨b, k, k0, j⟩)
        ∧ tryEnds ⟨b, k, k0, j'⟩ L = some (false, ⟨b, k, k0, j'⟩))
    ∨ (∃ r u, tryEnds ⟨b, k, k0, j⟩ L = some (r, u)
        ∧ tryEnds ⟨b, k, k0, j'⟩ L = some (r, u)) := by
  intro L
  induction L with
  | nil =>
    intro b k k0 j j'
    exact Or.inr (Or.inl ⟨rfl, rfl⟩)
  | cons suf rest ih =>
    intro b k k0 j j'
    unfold tryEnds
    rcases ends_with_j_cases b k k0 j j' suf with ⟨h1, h2⟩ | ⟨h1, h2⟩ | ⟨u, h1, h2⟩ <;>
      simp only [h1, h2]
    · exact Or.inl ⟨by simp, by simp⟩
    · simp only [Bool.false_eq_true, if_false]
      exact ih b k k0 j j'
    · exact self_three_way _ _ _

/-- The `'o'` branch of step 4 from two states differing only in `j`. -/
theorem step4o_j_cases (b : List Char) (k k0 j j' : Nat) :
    (step4o ⟨b, k, k0, j⟩ = none ∧ step4o ⟨b, k, k0, j'⟩ = none)
    ∨ (step4o ⟨b, k, k0, j⟩ = some (false, ⟨b, k, k0, j⟩)
        ∧ step4o ⟨b, k, k0, j'⟩ = some (false, ⟨b, k, k0, j'⟩))
    ∨ (∃ r u, step4o ⟨b, k, k0, j⟩ = some (r, u)
        ∧ step4o ⟨b, k, k0, j'⟩ = some (r, u)) := by
  unfold step4o
  rcases ends_with_j_cases b k k0 j j' ("ion".data) with ⟨h1, h2⟩ | ⟨h1, h2⟩ | ⟨u, h1, h2⟩ <;>
    simp only [h1, h2]
  · exact Or.inl ⟨by simp, by simp⟩
  · simp only [Bool.false_eq_true, if_false]
    rcases ends_with_j_cases b k k0 j j' ("ou".data) with ⟨g1, g2⟩ | ⟨g1, g2⟩ | ⟨u, g1, g2⟩ <;>
      simp only [g1, g2]
    · exact Or.inl ⟨by simp, by simp⟩
    · exact Or.inr (Or.inl ⟨by simp, by simp⟩)
    · exact Or.inr (Or.inr ⟨true, u, by simp, by simp⟩)
  · exact self_three_way _ _ _

/-- The step-4 dispatch from two states differing only in `j`: both
panic, both report no match leaving their own state, or both report the
same result. -/
theorem step4suffix_j_cases (c : Char) (b : List Char) (k k0 j j' : Nat) :
    (step4suffix ⟨b, k, k0, j⟩ c = none ∧ step4suffix ⟨b, k, k0, j'⟩ c = none)
    ∨ (step4suffix ⟨b, k, k0, j⟩ c = some (false, ⟨b, k, k0, j⟩)
        ∧ step4suffix ⟨b, k, k0, j'⟩ c = some (false, ⟨b, k, k0, j'⟩))
    ∨ (∃ r u, step4suffix ⟨b, k, k0, j⟩ c = some (r, u)
        ∧ step4suffix ⟨b, k, k0, j'⟩ c = some (r, u)) := by
  unfold step4suffix
  split
  · exact tryEnds_j_cases _ b k k0 j j'
  · exact tryEnds_j_cases _ b k k0 j j'
  · exact tryEnds_j_cases _ b k k0 j j'
  · exact tryEnds_j_cases _ b k k0 j j'
  · exact tryEnds_j_cases _ b k k0 j j'
  · exact tryEnds_j_cases _ b k k0 j j'
  · exact step4o_j_cases b k k0 j j'
  · exact tryEnds_j_cases _ b k k0 j j'
  · exact tryEnds_j_cases _ b k k0 j j'
  · exact tryEnds_j_cases _ b k k0 j j'
  · exact tryEnds_j_cases _ b k k0 j j'
  · exact tryEnds_j_cases _ b k k0 j j'
  · exact Or.inr (Or.inl ⟨rfl, rfl⟩)

/-- Step 4 gives `sameCore`-related results from states differing only in
`j`. -/
theorem step4_rel (b : List Char) (k k0 j j' : Nat) :
    optRel (step4 ⟨b, k, k0, j⟩) (step4 ⟨b, k, k0, j'⟩) := by
  unfold step4
  by_cases hg : k ≤ k0
  · simp only [hg, if_true]
    exact Or.inr ⟨_, _, rfl, rfl, rfl, rfl, rfl⟩
  · simp only [hg, if_false]
    cases hc : b.get? (k - 1) with
    | none => exact Or.inl ⟨rfl, rfl⟩
    | some c =>
      rcases step4suffix_j_cases c b k k0 j j' with ⟨h1, h2⟩ | ⟨h1, h2⟩ | ⟨r, u, h1, h2⟩ <;>
        simp only [h1, h2]
      · exact Or.inl ⟨rfl, rfl⟩
      · simp only [Bool.false_eq_true, if_false]
        exact Or.inr ⟨_, _, rfl, rfl, rfl, rfl, rfl⟩
      · exact optRel_of_eq rfl

/-- Step 5 never reads the incoming `j` (it overwrites it with `k`
first), so its result is literally the same from states differing only in
`j`. -/
theorem step5_rel (b : List Char) (k k0 j j' : Nat) :
    step5 ⟨b, k, k0, j⟩ = step5 ⟨b, k, k0, j'⟩ := rfl

/-- Step 1ab gives `sameCore`-related results from states differing only
in `j`. -/
theorem step1ab_rel (b : List Char) (k k0 j j' : Nat) :
    optRel (step1ab ⟨b, k, k0, j⟩) (step1ab ⟨b, k, k0, j'⟩) := by
  unfold step1ab
  simp only []
  split
  · exact Or.inl ⟨rfl, rfl⟩
  · rename_i ck heq
    by_cases hcs : (ck == 's') = true
    · rw [if_pos hcs, if_pos hcs]
      rcases step1a_rel b k k0 j j' with ⟨h1, h2⟩ | ⟨s1, t1, h1, h2, hb1, hk1, hk01⟩ <;>
        simp only [h1, h2]
      · exact Or.inl ⟨rfl, rfl⟩
      · obtain ⟨sb, sk, sk0, sj⟩ := s1
        obtain ⟨tb, tk, tk0, tj⟩ := t1
        simp only [] at hb1 hk1 hk01
        subst hb1; subst hk1; subst hk01
        exact step1b_rel sb sk sk0 sj tj
    · rw [if_neg hcs, if_neg hcs]
      exact step1b_rel b k k0 j j'

/-- The whole pipeline gives `sameCore`-related results from states
differing only in `j`: the incoming scratch offset `j` cannot influence
the computed word. -/
theorem stemPipeline_rel (b : List Char) (k k0 j j' : Nat) :
    optRel (stemPipeline ⟨b, k, k0, j⟩) (stemPipeline ⟨b, k, k0, j'⟩) := by
  unfold stemPipeline
  rcases step1ab_rel b k k0 j j' with ⟨h1, h2⟩ | ⟨s1, t1, h1, h2, hb1, hk1, hk01⟩ <;>
    simp only [h1, h2]
  · exact Or.inl ⟨rfl, rfl⟩
  · obtain ⟨sb, sk, sk0, sj⟩ := s1
    obtain ⟨tb, tk, tk0, tj⟩ := t1
    simp only [] at hb1 hk1 hk01
    subst hb1; subst hk1; subst hk01
    simp only []
    by_cases hg : sk0 < sk
    · simp only [hg, if_true]
      rcases step1c_rel sb sk sk0 sj tj with ⟨g1, g2⟩ | ⟨s2, t2, g1, g2, hb2, hk2, hk02⟩ <;>
        simp only [g1, g2]
      · exact Or.inl ⟨rfl, rfl⟩
      · obtain ⟨s2b, s2k, s2k0, s2j⟩ := s2
        obtain ⟨t2b, t2k, t2k0, t2j⟩ := t2
        simp only [] at hb2 hk2 hk02
        subst hb2; subst hk2; subst hk02
        rcases step2_rel s2b s2k s2k0 s2j t2j with ⟨f1, f2⟩ | ⟨s3, t3, f1, f2, hb3, hk3, hk03⟩ <;>
          simp only [f1, f2]
        · exact Or.inl ⟨rfl, rfl⟩
        · obtain ⟨s3b, s3k, s3k0, s3j⟩ := s3
          obtain ⟨t3b, t3k, t3k0, t3j⟩ := t3
          simp only [] at hb3 hk3 hk03
          subst hb3; subst hk3; subst hk03
          rcases step3_rel s3b s3k s3k0 s3j t3j with ⟨e1, e2⟩ | ⟨s4, t4, e1, e2, hb4, hk4, hk04⟩ <;>
            simp only [e1, e2]
          · exact Or.inl ⟨rfl, rfl⟩
          · obtain ⟨s4b, s4k, s4k0, s4j⟩ := s4
            obtain ⟨t4b, t4k, t4k0, t4j⟩ := t4
            simp only [] at hb4 hk4 hk04
            subst hb4; subst hk4; subst hk04
            rcases step4_rel s4b s4k s4k0 s4j t4j with ⟨d1, d2⟩ | ⟨s5, t5, d1, d2, hb5, hk5, hk05⟩ <;>
              simp only [d1, d2]
            · exact Or.inl ⟨rfl, rfl⟩
            · obtain ⟨s5b, s5k, s5k0, s5j⟩ := s5
              obtain ⟨t5b, t5k, t5k0, t5j⟩ := t5
              simp only [] at hb5 hk5 hk05
              subst hb5; subst hk5; subst hk05
              rw [step5_rel s5b s5k s5k0 s5j t5j]
              exact optRel_of_eq rfl
    · simp only [hg, if_false]
      exact Or.inr ⟨_, _, rfl, rfl, rfl, rfl, rfl⟩

/-- The visible result of the `stem` method does not depend on the
incoming state: the load overwrites the buffer and the cursors `k`, `k0`,
and the surviving scratch offset `j` cannot influence the pipeline. -/
theorem stemM_rel (s t : St) (w : String) :
    (stemM s w).map Prod.fst = (stemM t w).map Prod.fst := by
  unfold stemM
  by_cases he : w.data.isEmpty
  · rw [if_pos he, if_pos he]
    rfl
  · rw [if_neg he, if_neg he]
    dsimp only
    by_cases hg : (to_lowercase w).length - 1 ≤ 0 + 1
    · rw [if_pos hg, if_pos hg]
      rfl
    · rw [if_neg hg, if_neg hg]
      rcases stemPipeline_rel (to_lowercase w)
          ((to_lowercase w).length - 1) 0 s.j t.j with
        ⟨h1, h2⟩ | ⟨s2, t2, h1, h2, hb, hk, hk0⟩ <;> simp only [h1, h2]
      rw [hk, hb]
      by_cases hc : t2.k < t2.buffer.length <;> simp [hc]

/-- C8: for every word, `stem` called on a stemmer in any state (after
any sequence of prior calls) returns the same result as on a freshly
constructed stemmer; no persisting state — in particular the `j` cursor,
which is not reset on entry — can influence the result. -/
theorem stem_call_independent :
    ∀ (s t : St) (w : String),
      (stemM s w).map Prod.fst = (stemM t w).map Prod.fst
      ∧ (stemM s w).map Prod.fst = stem w :=
  fun s t w => ⟨stemM_rel s t w, stemM_rel s St.new w⟩

/-! ## C9: termination of the recursions, bounded by the input -/

/-- The recursion of `is_consonant` (leftward through the `y` rule)
converges within `i + 1` steps. -/
theorem isConsF_eq : ∀ (b : List Char) (k0 i : Nat),
    isConsF b k0 (i + 1) i = some (is_consonant b k0 i) := by
  intro b k0 i
  induction i with
  | zero =>
    unfold isConsF is_consonant
    cases hg : b.get? 0 <;> simp only [hg]
    split_ifs <;> simp_all
  | succ i ih =>
    unfold isConsF is_consonant
    cases hg : b.get? (i + 1) <;> simp only [hg]
    split_ifs with h1 h2 h3 h4
    · rfl
    · rfl
    · simp at h4
    · simp only [Nat.add_sub_cancel, ih, Option.map_some']
    · rfl

/-- The loop nest of `measure`, with its literal exit test `i > j`,
converges within `fuel + 1` iterations whenever `j + 1 ≤ i + fuel`, and
computes the value of the synchronous rendering `mLoop`. -/
theorem mLoopF_eq : ∀ (b : List Char) (k0 j fuel : Nat) (ph : MPhase) (n i : Nat),
    j + 1 ≤ i + fuel →
    mLoopF b k0 j (fuel + 1) ph n i = some (mLoop b k0 (j + 1 - i) ph n i) := by
  intro b k0 j fuel
  induction fuel with
  | zero =>
    intro ph n i hle
    have hji : j < i := by omega
    have h0 : j + 1 - i = 0 := by omega
    unfold mLoopF
    rw [if_pos hji, h0]
    rfl
  | succ fuel ih =>
    intro ph n i hle
    by_cases hji : j < i
    · have h0 : j + 1 - i = 0 := by omega
      unfold mLoopF
      rw [if_pos hji, h0]
      rfl
    · have h1 : j + 1 - i = (j - i) + 1 := by omega
      have h2 : j - i = j + 1 - (i + 1) := by omega
      unfold mLoopF
      rw [if_neg hji, h1]
      show _ = some (mLoop b k0 ((j - i) + 1) ph n i)
      unfold mLoop
      cases hc : is_consonant b k0 i with
      | none => rfl
      | some isC =>
        cases ph <;> cases isC <;>
          simp only [] <;> rw [h2] <;> exact ih _ _ _ (by omega)

/-- C9: the two recursions named by the claim — the leftward `y`
recursion of `is_consonant` and the nested scanning loops of `measure` —
are well-founded with depth bounded by the input: the fuelled renderings
`isConsF` and `mLoopF` converge (never exhaust their budget) with fuel
`i + 1` and `j + 2` respectively, and agree with the total functions of
the embedding; in particular `measure` itself is computed within `j + 2`
iterations. -/
theorem stem_loops_terminate :
    (∀ (b : List Char) (k0 i : Nat),
        isConsF b k0 (i + 1) i = some (is_consonant b k0 i))
    ∧ (∀ (b : List Char) (k0 j : Nat) (ph : MPhase) (n i : Nat),
        mLoopF b k0 j (j + 2) ph n i = some (mLoop b k0 (j + 1 - i) ph n i))
    ∧ (∀ st : St, mLoopF st.buffer st.k0 st.j (st.j + 2) MPhase.lead 0 st.k0
        = some (measure st)) := by
  refine ⟨isConsF_eq, fun b k0 j ph n i => mLoopF_eq b k0 j (j + 1) ph n i (by omega), ?_⟩
  intro st
  exact mLoopF_eq st.buffer st.k0 st.j (st.j + 1) MPhase.lead 0 st.k0 (by omega)

end Porter
